import Mathlib

set_option maxHeartbeats 1000000

/-!
Verification of the JSONL viewer repository (src/jsonl_ui.py, src/jvu.py,
src/viewer.py).  The Python code is shallowly embedded: files are modelled at
line granularity (a file is a `List String` of its lines, without trailing
newlines; a possibly missing file is an `Option`), JSON values decoded by the
`json` library are modelled by the inductive `JValue`, and the external
`json.loads` routine is modelled by an oracle of type `JsonLoads` that either
returns a decoded value or the exception message, exactly as the `try/except`
blocks in the source observe it.  Numeric JSON payloads are abstracted to
`Int`; no claim depends on numerics.
-/

/-- JSON values as decoded by `json.loads` / encoded by `json.dumps`. -/
inductive JValue where
  | null
  | bool (b : Bool)
  | num (n : Int)
  | str (s : String)
  | arr (elems : List JValue)
  | obj (fields : List (String × JValue))

/-- Model of the external `json.loads`: a total function from the text of one
line to either the decoded value or the exception message that `str(e)`
would render.  The reader functions below are proved correct for every such
oracle, which subsumes the real library. -/
abbrev JsonLoads := String → Except String JValue

/-- Model of Python's `str.strip()`: drop whitespace characters from both ends
of the string.  Defined over the character list so that it is kernel
computable (Lean's own `String.trim` is observationally the same operation but
is defined by position recursion the kernel cannot reduce). -/
def pyStrip (s : String) : String :=
  ⟨((s.data.dropWhile Char.isWhitespace).reverse.dropWhile Char.isWhitespace).reverse⟩

/-- Model of Python's `str.lower()` over the character list. -/
def pyLower (s : String) : String :=
  ⟨s.data.map Char.toLower⟩

/-- The body of the per-line `try/except` in `read_jsonl` (src/jsonl_ui.py,
lines 76-79): a successful parse yields the decoded row, a failure yields the
placeholder `{"__error__": f"Line {i}: {e}", "__raw__": s}`. -/
def lineRecord (loads : JsonLoads) (i : Nat) (s : String) : JValue :=
  match loads s with
  | .ok v => v
  | .error e =>
      .obj [("__error__", .str ("Line " ++ toString i ++ ": " ++ e)),
            ("__raw__", .str s)]

/-- The loop of `read_jsonl` (src/jsonl_ui.py, lines 72-79): `enumerate(f, 1)`
with `s = line.strip()`, skipping blank lines. -/
def readJsonlGo (loads : JsonLoads) : Nat → List String → List JValue
  | _, [] => []
  | i, line :: rest =>
    let s := pyStrip line
    if s = "" then readJsonlGo loads (i + 1) rest
    else lineRecord loads i s :: readJsonlGo loads (i + 1) rest

/-- `read_jsonl` (src/jsonl_ui.py, lines 67-80).  A missing file (`none`)
yields the empty row list, mirroring the `if not path.exists(): return rows`
guard. -/
def read_jsonl (loads : JsonLoads) (file : Option (List String)) : List JValue :=
  match file with
  | none => []
  | some lines => readJsonlGo loads 1 lines

/-- The per-line `try/except` of `_safe_jsonl` (src/jvu.py, lines 231-234):
a failure yields `{"_raw": line}` for the stripped line; note that, unlike
`read_jsonl`, the exception message is discarded. -/
def safeJsonlRecord (loads : JsonLoads) (s : String) : JValue :=
  match loads s with
  | .ok v => v
  | .error _ => .obj [("_raw", .str s)]

/-- The loop of `_safe_jsonl` (src/jvu.py, lines 227-235): `enumerate(f, 1)`,
blank lines are skipped by `continue` before the `if i >= limit: break`
check, and the break fires only after the record for line `i` was already
appended. -/
def safeJsonlGo (loads : JsonLoads) (limit : Nat) : Nat → List String → List JValue
  | _, [] => []
  | i, line :: rest =>
    let s := pyStrip line
    if s = "" then safeJsonlGo loads limit (i + 1) rest
    else
      let r := safeJsonlRecord loads s
      if limit ≤ i then [r]
      else r :: safeJsonlGo loads limit (i + 1) rest

/-- `_safe_jsonl` (src/jvu.py, lines 223-239).  The outer `try/except` around
`open` is modelled by the `Except` argument: an unreadable file contributes
the single record `{"error": str(e)}`. -/
def _safe_jsonl (loads : JsonLoads) (file : Except String (List String))
    (limit : Nat) : List JValue :=
  match file with
  | .error e => [.obj [("error", .str e)]]
  | .ok lines => safeJsonlGo loads limit 1 lines

/-- The per-line `try/except` of `load_jsonl` (src/viewer.py, lines 45-48):
`json.loads(line)` is applied to the raw line, while the placeholder for a
failure stores `line.strip()` under key `raw` with no failure reason. -/
def loadJsonlRecord (loads : JsonLoads) (line : String) : JValue :=
  match loads line with
  | .ok v => v
  | .error _ => .obj [("raw", .str (pyStrip line))]

/-- The loop of `load_jsonl` (src/viewer.py, lines 43-50): `enumerate(f)` is
0-based, the blank check guards only the append, and `if i >= limit: break`
runs for every line (blank or not) after it was processed. -/
def loadJsonlGo (loads : JsonLoads) (limit : Nat) : Nat → List String → List JValue
  | _, [] => []
  | i, line :: rest =>
    let hd : List JValue :=
      if pyStrip line = "" then [] else [loadJsonlRecord loads line]
    if limit ≤ i then hd
    else hd ++ loadJsonlGo loads limit (i + 1) rest

/-- `load_jsonl` (src/viewer.py, lines 36-53): returns `none` exactly when the
file is missing (`FileNotFoundError`). -/
def load_jsonl (loads : JsonLoads) (file : Option (List String))
    (limit : Nat) : Option (List JValue) :=
  match file with
  | none => none
  | some lines => some (loadJsonlGo loads limit 0 lines)

/-- The non-blank lines of a file, each paired with its 1-based line number
and already stripped, in file order.  This is the specification-side view of
"each non-blank line" used to state the reader claims. -/
def nonBlankLines : Nat → List String → List (Nat × String)
  | _, [] => []
  | i, l :: ls =>
    if pyStrip l = "" then nonBlankLines (i + 1) ls
    else (i, pyStrip l) :: nonBlankLines (i + 1) ls

/-- The non-blank lines of a file, kept raw (untrimmed), in file order. -/
def nonBlankRaw : List String → List String
  | [] => []
  | l :: ls => if pyStrip l = "" then nonBlankRaw ls else l :: nonBlankRaw ls

/-- A concrete `json.loads` oracle used by witnesses: it fails with the
message "Expecting value" exactly on the line "not json". -/
def badLoads : JsonLoads :=
  fun s => if s = "not json" then .error "Expecting value" else .ok .null

/-- `infer_schema_name` (src/viewer.py, lines 88-101): heuristic schema-name
detection from the lowercased field names.  Python's `{a, b} <= keys` subset
test on the key set is the conjunction of the two memberships. -/
def infer_schema_name (schema_keys : List String) : String :=
  let keys := schema_keys.map pyLower
  if "prompt" ∈ keys ∧ "completion" ∈ keys then "OpenAI-SFT Schema"
  else if "prompt" ∈ keys ∧ "response" ∈ keys then "Alpaca-Style Schema"
  else if "chosen" ∈ keys ∧ "rejected" ∈ keys then "Preference (DPO) Schema"
  else if "system" ∈ keys ∧ "messages" ∈ keys then "ChatML / Conversation Schema"
  else if "input" ∈ keys ∧ "output" ∈ keys then "Generic IO Schema"
  else "Unknown / Custom Schema"

/-- The top-level keys of one decoded record, as collected by the
`key_stats` loop of `schema_info` (src/viewer.py, lines 143-152) for a file
whose only record is this object: non-objects contribute no keys. -/
def objKeys : JValue → List String
  | .obj fields => fields.map Prod.fst
  | _ => []

/-- The sample record {"messages":[{"role":"user","content":"hi"}]} named by
the claim about chat-shape recognition. -/
def chatSample : JValue :=
  .obj [("messages", .arr [.obj [("role", .str "user"), ("content", .str "hi")]])]

/-- The sample record {"input":"a","output":"b"} named by the claim about
input/output recognition. -/
def ioSample : JValue :=
  .obj [("input", .str "a"), ("output", .str "b")]

mutual
/-- A directory tree for modelling `os.walk`: a node holds the file names of
the directory and its named subdirectories.  Symlinks are not modelled
(`os.walk` does not follow them by default, matching the spec). -/
inductive FsTree where
  | node (files : List String) (subdirs : FsForest)
/-- A list of named sibling directories. -/
inductive FsForest where
  | nil
  | cons (name : String) (tree : FsTree) (rest : FsForest)
end

/-- The inner `for name in files` loop of `iter_files` (src/jvu.py, lines
168-174): append each path whose extension the caller-supplied filter `keep`
accepts (modelling `not exts or p.suffix.lower() in exts`), and return as
soon as the accumulated result reaches `max_files` (`if len(found) >=
max_files: return found` runs after each append).  The Bool records whether
that early `return` fired.  Paths are segment lists. -/
def addFiles (keep : String → Bool) (maxFiles : Nat) (cur : List String) :
    List String → List (List String) → List (List String) × Bool
  | [], acc => (acc, false)
  | f :: fs, acc =>
    if keep f then
      let acc2 := acc ++ [cur ++ [f]]
      if maxFiles ≤ acc2.length then (acc2, true)
      else addFiles keep maxFiles cur fs acc2
    else addFiles keep maxFiles cur fs acc

mutual
/-- The `os.walk(root, topdown=True)` loop of `iter_files` (src/jvu.py, lines
166-174) on one directory: process the directory's files, then descend into
each subdirectory not excluded by `dirs[:] = [d for d in dirs if not
_prune_dir(Path(r, d))]`.  `prune` abstracts `_prune_dir` (src/jvu.py, lines
126-136: canonical path in SKIP_DIRS or matching a prune glob) as a predicate
on the full path.  The Bool propagates the early `return found`. -/
def walkTree (prune : List String → Bool) (keep : String → Bool) (maxFiles : Nat)
    (cur : List String) : FsTree → List (List String) → List (List String) × Bool
  | .node files subdirs, acc =>
    match addFiles keep maxFiles cur files acc with
    | (acc1, true) => (acc1, true)
    | (acc1, false) => walkForest prune keep maxFiles cur subdirs acc1

/-- The sibling half of the `os.walk` recursion: skip pruned subdirectories
entirely, stop as soon as a subtree's walk hit the cap. -/
def walkForest (prune : List String → Bool) (keep : String → Bool) (maxFiles : Nat)
    (cur : List String) : FsForest → List (List String) → List (List String) × Bool
  | .nil, acc => (acc, false)
  | .cons name t rest, acc =>
    if prune (cur ++ [name]) then walkForest prune keep maxFiles cur rest acc
    else
      match walkTree prune keep maxFiles (cur ++ [name]) t acc with
      | (acc1, true) => (acc1, true)
      | (acc1, false) => walkForest prune keep maxFiles cur rest acc1
end

/-- The outer `for root in roots` loop of `iter_files` (src/jvu.py, lines
163-175): a pruned root is skipped (`continue`); a walk that hit the cap
returns immediately. -/
def iterFilesGo (prune : List String → Bool) (keep : String → Bool) (maxFiles : Nat) :
    List (List String × FsTree) → List (List String) → List (List String)
  | [], acc => acc
  | (rp, t) :: rest, acc =>
    if prune rp then iterFilesGo prune keep maxFiles rest acc
    else
      match walkTree prune keep maxFiles rp t acc with
      | (acc1, true) => acc1
      | (acc1, false) => iterFilesGo prune keep maxFiles rest acc1

/-- `iter_files` (src/jvu.py, lines 160-175): recursive walk of the root
directories, collecting at most `max_files` matching file paths.  Each root
is a path (segment list) together with its directory tree. -/
def iter_files (prune : List String → Bool) (keep : String → Bool) (maxFiles : Nat)
    (roots : List (List String × FsTree)) : List (List String) :=
  iterFilesGo prune keep maxFiles roots []

mutual
/-- Specification-side count of the walk: all matching, non-pruned-reachable
file paths of a tree, in walk order, with no cap.  Used to state when the
cap is actually hit. -/
def collectTree (prune : List String → Bool) (keep : String → Bool)
    (cur : List String) : FsTree → List (List String)
  | .node files subdirs =>
    (files.filter keep).map (fun f => cur ++ [f])
      ++ collectForest prune keep cur subdirs

/-- Sibling half of the uncapped specification walk. -/
def collectForest (prune : List String → Bool) (keep : String → Bool)
    (cur : List String) : FsForest → List (List String)
  | .nil => []
  | .cons name t rest =>
    (if prune (cur ++ [name]) then []
     else collectTree prune keep (cur ++ [name]) t)
      ++ collectForest prune keep cur rest
end

/-- Specification-side count of the walk over all roots, mirroring the
root-level pruning of `iter_files`. -/
def collectRoots (prune : List String → Bool) (keep : String → Bool) :
    List (List String × FsTree) → List (List String)
  | [] => []
  | (rp, t) :: rest =>
    (if prune rp then [] else collectTree prune keep rp t)
      ++ collectRoots prune keep rest

/-- The kind of an `os.scandir` entry as the probe distinguishes them:
`entry.is_file()`, `entry.is_dir(follow_symlinks=False)`, or neither (e.g. a
symlink or special file, which consumes budget but is otherwise ignored). -/
inductive EntryKind where
  | file
  | dir
  | other

/-- One `os.scandir` entry: a name and its kind. -/
structure FsEntry where
  name : String
  kind : EntryKind

/-- A filesystem for the look-ahead probe: an arbitrary function from a
directory path to its `os.scandir` listing.  Because it is an arbitrary
function, it also encodes infinitely deep and arbitrarily wide trees. -/
abbrev ScanFs := List String → List FsEntry

/-- The `for entry in it` loop of `_dir_has_match` (src/jvu.py, lines
142-155): decrement the budget, give up when it is exhausted, skip pruned
entries, report a match on a kept file, and recurse (through `recur`,
instantiated with the probe at `max_depth - 1`) into subdirectories with the
current remaining budget — Python's `budget` is a local int, so a recursive
call's consumption does not affect the caller's copy. -/
def probeEntries (prune : List String → Bool) (keep : String → Bool)
    (recur : List String → Int → Bool) (root : List String) :
    List FsEntry → Int → Bool
  | [], _ => false
  | e :: rest, budget =>
    let b := budget - 1
    if b ≤ 0 then false
    else
      let p := root ++ [e.name]
      if prune p then probeEntries prune keep recur root rest b
      else
        match e.kind with
        | .file => if keep e.name then true else probeEntries prune keep recur root rest b
        | .dir =>
            if recur p b then true else probeEntries prune keep recur root rest b
        | .other => probeEntries prune keep recur root rest b

/-- `_dir_has_match` with the depth guard turned into structural fuel:
fuel `(max_depth + 1).toNat` makes `max_depth < 0 → False` the fuel-0 case
and the recursive call at `max_depth - 1` a call at fuel minus one.  `keep`
abstracts `not exts or p.suffix.lower() in exts` as a predicate on the file
name; `prune` abstracts `_prune_dir`. -/
def dirHasMatchFuel (fs : ScanFs) (prune : List String → Bool)
    (keep : String → Bool) : Nat → List String → Int → Bool
  | 0, _, _ => false
  | fuel + 1, root, budget =>
    if budget ≤ 0 then false
    else probeEntries prune keep (dirHasMatchFuel fs prune keep fuel) root (fs root) budget

/-- `_dir_has_match` (src/jvu.py, lines 138-158): the bounded look-ahead used
by `iter_tree` to hide directories with no matching file within `max_depth`
levels and a visited-entry `budget`. -/
def _dir_has_match (fs : ScanFs) (prune : List String → Bool) (keep : String → Bool)
    (root : List String) (max_depth : Int) (budget : Int) : Bool :=
  dirHasMatchFuel fs prune keep (max_depth + 1).toNat root budget

/-- Model of the external `json.dumps(r, ensure_ascii=False)`: a total
function from a record to its one-line serialization. -/
abbrev JsonDumps := JValue → String

/-- `write_jsonl` (src/jsonl_ui.py, lines 82-90) at line granularity: the
file after the `tmp.replace(path)` rename holds one `json.dumps(r) + "\n"`
line per record, in list order.  (The `.bak` copy and the temporary file are
not part of the resulting main-file content.) -/
def write_jsonl (dumps : JsonDumps) (rows : List JValue) : List String :=
  rows.map dumps

/-- The outcome of a mutating endpoint as the HTTP layer observes it. -/
inductive ApiResp where
  | httpError (code : Nat) (msg : String)
  | jsonError (msg : String)
  | ok

/-- `api_get_record` (src/jsonl_ui.py, lines 177-183): read the rows (a
missing file reads as `[]`), reject an out-of-range index with 404 "Index out
of range", otherwise return the row.  `idx` is an `Int` since the form field
may be negative. -/
def api_get_record (loads : JsonLoads) (file : Option (List String))
    (idx : Int) : Except (Nat × String) JValue :=
  let rows := read_jsonl loads file
  if idx < 0 ∨ (rows.length : Int) ≤ idx then .error (404, "Index out of range")
  else .ok (rows.getD idx.toNat .null)

/-- `api_update_record` (src/jsonl_ui.py, lines 185-197): the index check
runs before the payload parse, and both run before any write; only the
success path calls `write_jsonl`.  Returns the file content after the call
together with the response. -/
def api_update_record (loads : JsonLoads) (dumps : JsonDumps)
    (file : Option (List String)) (idx : Int) (payload : String) :
    Option (List String) × ApiResp :=
  let rows := read_jsonl loads file
  if idx < 0 ∨ (rows.length : Int) ≤ idx then
    (file, .httpError 404 "Index out of range")
  else
    match loads payload with
    | .error e => (file, .jsonError ("JSON parse error: " ++ e))
    | .ok obj => (some (write_jsonl dumps (rows.set idx.toNat obj)), .ok)

/-- `api_delete_record` (src/jsonl_ui.py, lines 211-219): the index check
runs before the write; only the success path calls `write_jsonl`. -/
def api_delete_record (loads : JsonLoads) (dumps : JsonDumps)
    (file : Option (List String)) (idx : Int) :
    Option (List String) × ApiResp :=
  let rows := read_jsonl loads file
  if idx < 0 ∨ (rows.length : Int) ≤ idx then
    (file, .httpError 404 "Index out of range")
  else (some (write_jsonl dumps (rows.eraseIdx idx.toNat)), .ok)

theorem readJsonlGo_eq (loads : JsonLoads) :
    ∀ (ls : List String) (i : Nat),
      readJsonlGo loads i ls
        = (nonBlankLines i ls).map (fun p => lineRecord loads p.1 p.2) := by
  intro ls
  induction ls with
  | nil => intro i; rfl
  | cons l ls ih =>
      intro i
      by_cases h : pyStrip l = "" <;>
        simp [readJsonlGo, nonBlankLines, h, ih]

theorem safeJsonlGo_eq (loads : JsonLoads) (limit : Nat) :
    ∀ (ls : List String) (i : Nat), i + ls.length ≤ limit + 1 →
      safeJsonlGo loads limit i ls
        = (nonBlankLines i ls).map (fun p => safeJsonlRecord loads p.2) := by
  intro ls
  induction ls with
  | nil => intro i _; rfl
  | cons l ls ih =>
      intro i hb
      simp only [List.length_cons] at hb
      by_cases h : pyStrip l = ""
      · simp [safeJsonlGo, nonBlankLines, h, ih (i + 1) (by omega)]
      · by_cases hl : limit ≤ i
        · have hnil : ls = [] := by
            cases ls with
            | nil => rfl
            | cons a as => exfalso; simp [List.length_cons] at hb; omega
          subst hnil
          simp [safeJsonlGo, nonBlankLines, h, hl]
        · simp [safeJsonlGo, nonBlankLines, h, hl, ih (i + 1) (by omega)]

theorem loadJsonlGo_eq (loads : JsonLoads) (limit : Nat) :
    ∀ (ls : List String) (i : Nat), i + ls.length ≤ limit + 1 →
      loadJsonlGo loads limit i ls
        = (nonBlankRaw ls).map (loadJsonlRecord loads) := by
  intro ls
  induction ls with
  | nil => intro i _; rfl
  | cons l ls ih =>
      intro i hb
      simp only [List.length_cons] at hb
      by_cases hl : limit ≤ i
      · have hnil : ls = [] := by
          cases ls with
          | nil => rfl
          | cons a as => exfalso; simp [List.length_cons] at hb; omega
        subst hnil
        by_cases h : pyStrip l = "" <;> simp [loadJsonlGo, nonBlankRaw, h, hl]
      · by_cases h : pyStrip l = "" <;>
          simp [loadJsonlGo, nonBlankRaw, h, hl, ih (i + 1) (by omega)]

/-- C2 (amended): each reader yields exactly one record per non-blank line, in
file order, `read_jsonl` unconditionally and `_safe_jsonl` / `load_jsonl`
only for files within their line limits (`i >= limit` breaks the loop after
1-based line `limit`, resp. after 0-based line `limit`). -/
theorem readers_record_per_nonblank_line (loads : JsonLoads) (lines : List String)
    (limit limit2 : Nat) (h1 : lines.length ≤ limit) (h2 : lines.length ≤ limit2 + 1) :
    read_jsonl loads (some lines)
        = (nonBlankLines 1 lines).map (fun p => lineRecord loads p.1 p.2)
    ∧ _safe_jsonl loads (.ok lines) limit
        = (nonBlankLines 1 lines).map (fun p => safeJsonlRecord loads p.2)
    ∧ load_jsonl loads (some lines) limit2
        = some ((nonBlankRaw lines).map (loadJsonlRecord loads)) := by
  refine ⟨readJsonlGo_eq loads lines 1, ?_, ?_⟩
  · exact safeJsonlGo_eq loads limit lines 1 (by omega)
  · exact congrArg some (loadJsonlGo_eq loads limit2 lines 0 (by omega))

theorem readers_record_per_nonblank_line_witness :
    read_jsonl (fun s => .ok (.str s)) (some ["1", " ", "2"])
        = (nonBlankLines 1 ["1", " ", "2"]).map
            (fun p => lineRecord (fun s => .ok (.str s)) p.1 p.2)
    ∧ _safe_jsonl (fun s => .ok (.str s)) (.ok ["1", " ", "2"]) 3
        = (nonBlankLines 1 ["1", " ", "2"]).map
            (fun p => safeJsonlRecord (fun s => .ok (.str s)) p.2)
    ∧ load_jsonl (fun s => .ok (.str s)) (some ["1", " ", "2"]) 2
        = some ((nonBlankRaw ["1", " ", "2"]).map
            (loadJsonlRecord (fun s => .ok (.str s)))) :=
  readers_record_per_nonblank_line (fun s => .ok (.str s)) ["1", " ", "2"] 3 2
    (by decide) (by decide)

/-- C2 counterexample: the claim "exactly one Record per non-blank line" fails
for `load_jsonl` as soon as the file is longer than its limit.  At the limit
used by its callers (`limit = 100`), a file of 102 non-blank lines yields only
101 records: the loop breaks after processing 0-based line index 100. -/
theorem load_jsonl_truncates_cex :
    (load_jsonl (fun _ => .ok .null) (some (List.replicate 102 "1")) 100).map
        List.length = some 101
    ∧ (nonBlankRaw (List.replicate 102 "1")).length = 102 := by
  constructor <;> decide

/-- C1 (amended): when the k-th non-blank line (1-based file line `i`,
stripped text `s`) fails to parse, `read_jsonl` substitutes, at position k of
its output, the placeholder carrying both the failure reason (`__error__`,
with the line number) and the raw stripped text (`__raw__` equal to `s`
exactly), and it still yields one record per non-blank line (the length
conjunct), so no single-line failure aborts the read.  `_safe_jsonl`
substitutes only `{"_raw": s}`: the raw round-trip holds but the failure
reason is discarded. -/
theorem read_jsonl_error_record (loads : JsonLoads) (lines : List String)
    (k i : Nat) (s e : String)
    (hk : (nonBlankLines 1 lines)[k]? = some (i, s))
    (he : loads s = .error e) :
    (read_jsonl loads (some lines))[k]?
        = some (.obj [("__error__", .str ("Line " ++ toString i ++ ": " ++ e)),
                      ("__raw__", .str s)])
    ∧ (read_jsonl loads (some lines)).length = (nonBlankLines 1 lines).length
    ∧ ∀ limit : Nat, lines.length ≤ limit →
        (_safe_jsonl loads (.ok lines) limit)[k]? = some (.obj [("_raw", .str s)]) := by
  have hr : read_jsonl loads (some lines)
      = (nonBlankLines 1 lines).map (fun p => lineRecord loads p.1 p.2) :=
    readJsonlGo_eq loads lines 1
  refine ⟨?_, ?_, ?_⟩
  · rw [hr, List.getElem?_map, hk]
    simp [lineRecord, he]
  · rw [hr, List.length_map]
  · intro limit hlim
    have hs : _safe_jsonl loads (.ok lines) limit
        = (nonBlankLines 1 lines).map (fun p => safeJsonlRecord loads p.2) :=
      safeJsonlGo_eq loads limit lines 1 (by omega)
    rw [hs, List.getElem?_map, hk]
    simp [safeJsonlRecord, he]

theorem read_jsonl_error_record_witness :
    (read_jsonl badLoads (some ["1", "", "not json", "2"]))[1]?
        = some (.obj [("__error__", .str ("Line " ++ toString 3 ++ ": " ++ "Expecting value")),
                      ("__raw__", .str "not json")])
    ∧ (read_jsonl badLoads (some ["1", "", "not json", "2"])).length
        = (nonBlankLines 1 ["1", "", "not json", "2"]).length
    ∧ ∀ limit : Nat, (["1", "", "not json", "2"] : List String).length ≤ limit →
        (_safe_jsonl badLoads (.ok ["1", "", "not json", "2"]) limit)[1]?
          = some (.obj [("_raw", .str "not json")]) :=
  read_jsonl_error_record badLoads ["1", "", "not json", "2"] 1 3 "not json"
    "Expecting value" (by decide) (by rfl)

/-- C1 counterexample: the claim requires every reader's placeholder to carry
the failure reason, but `_safe_jsonl`'s placeholder for an unparseable line is
exactly `{"_raw": <stripped line>}` — a one-field object in which the
exception message ("Expecting value" here) appears nowhere. -/
theorem safe_jsonl_drops_reason_cex :
    _safe_jsonl (fun _ => .error "Expecting value") (.ok ["not json"]) 5000
      = [.obj [("_raw", .str "not json")]] := by
  rfl

/-- C3 (amended): `infer_schema_name` reports the chat shape ("ChatML /
Conversation Schema") exactly when the lowercased key set contains both
`system` and `messages` and none of the three recognizers checked before it
(prompt/completion, prompt/response, chosen/rejected) fully matches; the
value under `messages` is never inspected, the chat check is fourth rather
than first, and the function returns a name string, not a descriptor. -/
theorem chatml_recognition (schema_keys : List String) :
    infer_schema_name schema_keys = "ChatML / Conversation Schema" ↔
      ("system" ∈ schema_keys.map pyLower ∧ "messages" ∈ schema_keys.map pyLower)
      ∧ ¬("prompt" ∈ schema_keys.map pyLower ∧ "completion" ∈ schema_keys.map pyLower)
      ∧ ¬("prompt" ∈ schema_keys.map pyLower ∧ "response" ∈ schema_keys.map pyLower)
      ∧ ¬("chosen" ∈ schema_keys.map pyLower ∧ "rejected" ∈ schema_keys.map pyLower) := by
  simp only [infer_schema_name]
  split_ifs with h1 h2 h3 h4 h5
  · exact iff_of_false (by decide) (fun h => h.2.1 h1)
  · exact iff_of_false (by decide) (fun h => h.2.2.1 h2)
  · exact iff_of_false (by decide) (fun h => h.2.2.2 h3)
  · exact iff_of_true rfl ⟨h4, h1, h2, h3⟩
  · exact iff_of_false (by decide) (fun h => h4 h.1)
  · exact iff_of_false (by decide) (fun h => h4 h.1)

/-- C3 counterexample: on the claim's own sample record
{"messages":[{"role":"user","content":"hi"}]} (whose key set is just
["messages"]), schema inference does not recognize the chat shape: it falls
through every recognizer — the chat branch additionally requires a `system`
key — and returns the unknown/custom name. -/
theorem chat_messages_only_unrecognized_cex :
    infer_schema_name (objKeys chatSample) = "Unknown / Custom Schema"
    ∧ infer_schema_name (objKeys chatSample) ≠ "ChatML / Conversation Schema" := by
  constructor <;> decide

/-- C4 (amended): `infer_schema_name` reports the input/output shape
("Generic IO Schema") exactly when the lowercased key set contains both
`input` and `output` and none of the four recognizers checked before it
(prompt/completion, prompt/response, chosen/rejected, system+messages) fully
matches; in particular it does so on {"input":"a","output":"b"}. -/
theorem generic_io_recognition :
    (∀ schema_keys : List String,
      infer_schema_name schema_keys = "Generic IO Schema" ↔
        ("input" ∈ schema_keys.map pyLower ∧ "output" ∈ schema_keys.map pyLower)
        ∧ ¬("prompt" ∈ schema_keys.map pyLower ∧ "completion" ∈ schema_keys.map pyLower)
        ∧ ¬("prompt" ∈ schema_keys.map pyLower ∧ "response" ∈ schema_keys.map pyLower)
        ∧ ¬("chosen" ∈ schema_keys.map pyLower ∧ "rejected" ∈ schema_keys.map pyLower)
        ∧ ¬("system" ∈ schema_keys.map pyLower ∧ "messages" ∈ schema_keys.map pyLower))
    ∧ infer_schema_name (objKeys ioSample) = "Generic IO Schema" := by
  constructor
  · intro schema_keys
    simp only [infer_schema_name]
    split_ifs with h1 h2 h3 h4 h5
    · exact iff_of_false (by decide) (fun h => h.2.1 h1)
    · exact iff_of_false (by decide) (fun h => h.2.2.1 h2)
    · exact iff_of_false (by decide) (fun h => h.2.2.2.1 h3)
    · exact iff_of_false (by decide) (fun h => h.2.2.2.2 h4)
    · exact iff_of_true rfl ⟨h5, h1, h2, h3, h4⟩
    · exact iff_of_false (by decide) (fun h => h5 h.1)
  · decide

/-- C4 counterexample: a record whose keys are a superset of {input, output}
and which is not the chat shape (no `messages` key at all), yet inference
returns the OpenAI-SFT name because the prompt/completion recognizer runs
first — not the input/output descriptor the claim requires. -/
theorem io_superset_shadowed_cex :
    infer_schema_name ["prompt", "completion", "input", "output"]
        = "OpenAI-SFT Schema"
    ∧ infer_schema_name ["prompt", "completion", "input", "output"]
        ≠ "Generic IO Schema"
    ∧ "messages" ∉ ["prompt", "completion", "input", "output"] := by
  refine ⟨by decide, by decide, by decide⟩

theorem addFiles_inv (keep : String → Bool) (m : Nat) (cur : List String) :
    ∀ (fs : List String) (acc : List (List String)), acc.length < m →
      ((addFiles keep m cur fs acc).2 = true
          ∧ (addFiles keep m cur fs acc).1.length = m)
      ∨ ((addFiles keep m cur fs acc).2 = false
          ∧ (addFiles keep m cur fs acc).1.length < m
          ∧ (addFiles keep m cur fs acc).1
              = acc ++ (fs.filter keep).map (fun f => cur ++ [f])) := by
  intro fs
  induction fs with
  | nil => intro acc h; right; simp [addFiles, h]
  | cons f fs ih =>
      intro acc h
      by_cases hk : keep f = true
      · simp only [addFiles, hk, if_true]
        by_cases hm : m ≤ (acc ++ [cur ++ [f]]).length
        · rw [if_pos hm]
          simp only [List.length_append, List.length_cons, List.length_nil] at hm
          refine Or.inl ⟨rfl, ?_⟩
          simp only [List.length_append, List.length_cons, List.length_nil]
          omega
        · rw [if_neg hm]
          have h2 : (acc ++ [cur ++ [f]]).length < m := by omega
          rcases ih (acc ++ [cur ++ [f]]) h2 with ⟨hs, hl⟩ | ⟨hs, hl, he⟩
          · exact Or.inl ⟨hs, hl⟩
          · refine Or.inr ⟨hs, hl, ?_⟩
            rw [he]
            simp [List.filter_cons, hk]
      · have hk' : keep f = false := by simpa using hk
        simp only [addFiles, hk', Bool.false_eq_true, if_false]
        rcases ih acc h with ⟨hs, hl⟩ | ⟨hs, hl, he⟩
        · exact Or.inl ⟨hs, hl⟩
        · refine Or.inr ⟨hs, hl, ?_⟩
          rw [he]
          simp [List.filter_cons, hk']

mutual
theorem walkTree_inv (prune : List String → Bool) (keep : String → Bool) (m : Nat)
    (t : FsTree) : ∀ (cur : List String) (acc : List (List String)), acc.length < m →
      ((walkTree prune keep m cur t acc).2 = true
          ∧ (walkTree prune keep m cur t acc).1.length = m)
      ∨ ((walkTree prune keep m cur t acc).2 = false
          ∧ (walkTree prune keep m cur t acc).1.length < m
          ∧ (walkTree prune keep m cur t acc).1
              = acc ++ collectTree prune keep cur t) := by
  cases t with
  | node files subdirs =>
      intro cur acc h
      rcases ha : addFiles keep m cur files acc with ⟨acc1, st⟩
      have hinv := addFiles_inv keep m cur files acc h
      rw [ha] at hinv
      cases st with
      | true =>
          rcases hinv with ⟨_, hl⟩ | ⟨hs, _, _⟩
          · exact Or.inl ⟨by simp [walkTree, ha], by simp [walkTree, ha, hl]⟩
          · exact absurd hs (by simp)
      | false =>
          rcases hinv with ⟨hs, _⟩ | ⟨_, hl, he⟩
          · exact absurd hs (by simp)
          · have hrec := walkForest_inv prune keep m subdirs cur acc1 hl
            rcases hrec with ⟨hs2, hl2⟩ | ⟨hs2, hl2, he2⟩
            · exact Or.inl ⟨by simp [walkTree, ha, hs2], by simp [walkTree, ha, hl2]⟩
            · refine Or.inr ⟨by simp [walkTree, ha, hs2], by simp [walkTree, ha, hl2], ?_⟩
              have he' : acc1 = acc ++ (files.filter keep).map (fun f => cur ++ [f]) := he
              simp only [walkTree, ha]
              rw [he2, he', collectTree, List.append_assoc]

theorem walkForest_inv (prune : List String → Bool) (keep : String → Bool) (m : Nat)
    (fr : FsForest) : ∀ (cur : List String) (acc : List (List String)), acc.length < m →
      ((walkForest prune keep m cur fr acc).2 = true
          ∧ (walkForest prune keep m cur fr acc).1.length = m)
      ∨ ((walkForest prune keep m cur fr acc).2 = false
          ∧ (walkForest prune keep m cur fr acc).1.length < m
          ∧ (walkForest prune keep m cur fr acc).1
              = acc ++ collectForest prune keep cur fr) := by
  cases fr with
  | nil => intro cur acc h; right; simp [walkForest, collectForest, h]
  | cons name t rest =>
      intro cur acc h
      by_cases hp : prune (cur ++ [name]) = true
      · have hrec := walkForest_inv prune keep m rest cur acc h
        rcases hrec with ⟨hs, hl⟩ | ⟨hs, hl, he⟩
        · exact Or.inl ⟨by simp [walkForest, hp, hs], by simp [walkForest, hp, hl]⟩
        · refine Or.inr ⟨by simp [walkForest, hp, hs], by simp [walkForest, hp, hl], ?_⟩
          simp only [walkForest, hp, if_true]
          rw [he, collectForest, if_pos hp]
          simp
      · have hp' : prune (cur ++ [name]) = false := by simpa using hp
        rcases hw : walkTree prune keep m (cur ++ [name]) t acc with ⟨acc1, st⟩
        have hinv := walkTree_inv prune keep m t (cur ++ [name]) acc h
        rw [hw] at hinv
        cases st with
        | true =>
            rcases hinv with ⟨_, hl⟩ | ⟨hs, _, _⟩
            · exact Or.inl ⟨by simp [walkForest, hp', hw], by simp [walkForest, hp', hw, hl]⟩
            · exact absurd hs (by simp)
        | false =>
            rcases hinv with ⟨hs, _⟩ | ⟨_, hl, he⟩
            · exact absurd hs (by simp)
            · have hrec := walkForest_inv prune keep m rest cur acc1 hl
              rcases hrec with ⟨hs2, hl2⟩ | ⟨hs2, hl2, he2⟩
              · exact Or.inl ⟨by simp [walkForest, hp', hw, hs2],
                  by simp [walkForest, hp', hw, hl2]⟩
              · refine Or.inr ⟨by simp [walkForest, hp', hw, hs2],
                  by simp [walkForest, hp', hw, hl2], ?_⟩
                have he' : acc1 = acc ++ collectTree prune keep (cur ++ [name]) t := he
                simp only [walkForest, hp', Bool.false_eq_true, if_false, hw]
                rw [he2, he', collectForest, if_neg (by simp [hp']),
                  List.append_assoc]
end

theorem iterFilesGo_inv (prune : List String → Bool) (keep : String → Bool) (m : Nat) :
    ∀ (roots : List (List String × FsTree)) (acc : List (List String)), acc.length < m →
      (iterFilesGo prune keep m roots acc).length = m
      ∨ ((iterFilesGo prune keep m roots acc).length < m
          ∧ iterFilesGo prune keep m roots acc
              = acc ++ collectRoots prune keep roots) := by
  intro roots
  induction roots with
  | nil => intro acc h; right; simp [iterFilesGo, collectRoots, h]
  | cons rt rest ih =>
      intro acc h
      rcases rt with ⟨rp, t⟩
      by_cases hp : prune rp = true
      · rcases ih acc h with hl | ⟨hl, he⟩
        · exact Or.inl (by simpa [iterFilesGo, hp] using hl)
        · refine Or.inr ⟨by simpa [iterFilesGo, hp] using hl, ?_⟩
          simp only [iterFilesGo, hp, if_true]
          rw [he, collectRoots, if_pos hp]
          simp
      · have hp' : prune rp = false := by simpa using hp
        rcases hw : walkTree prune keep m rp t acc with ⟨acc1, st⟩
        have hinv := walkTree_inv prune keep m t rp acc h
        rw [hw] at hinv
        cases st with
        | true =>
            rcases hinv with ⟨_, hl⟩ | ⟨hs, _, _⟩
            · exact Or.inl (by simpa [iterFilesGo, hp', hw] using hl)
            · exact absurd hs (by simp)
        | false =>
            rcases hinv with ⟨hs, _⟩ | ⟨_, hl, he⟩
            · exact absurd hs (by simp)
            · have he' : acc1 = acc ++ collectTree prune keep rp t := he
              rcases ih acc1 hl with hl2 | ⟨hl2, he2⟩
              · exact Or.inl (by simpa [iterFilesGo, hp', hw] using hl2)
              · refine Or.inr ⟨by simpa [iterFilesGo, hp', hw] using hl2, ?_⟩
                simp only [iterFilesGo, hp', Bool.false_eq_true, if_false, hw]
                rw [he2, he', collectRoots, if_neg (by simp [hp']), List.append_assoc]

/-- C5: for every collection of roots and every positive cap, the recursive
walk `iter_files` returns at most `max_files` paths, and returns exactly
`max_files` paths whenever the non-pruned part of the trees holds at least
`max_files` matching files (`collectRoots` is the uncapped walk), so hitting
the cap is observable. -/
theorem iter_files_cap (prune : List String → Bool) (keep : String → Bool)
    (m : Nat) (roots : List (List String × FsTree)) (hm : 0 < m) :
    (iter_files prune keep m roots).length ≤ m
    ∧ (m ≤ (collectRoots prune keep roots).length →
        (iter_files prune keep m roots).length = m) := by
  have hinv := iterFilesGo_inv prune keep m roots [] (by simpa using hm)
  rcases hinv with hl | ⟨hl, he⟩
  · exact ⟨le_of_eq hl, fun _ => hl⟩
  · constructor
    · exact le_of_lt hl
    · intro hge
      exfalso
      rw [he] at hl
      simp at hl
      omega

theorem iter_files_cap_witness :
    (iter_files (fun _ => false) (fun _ => true) 1
        [(["r"], .node ["a.jsonl", "b.jsonl"] .nil)]).length ≤ 1
    ∧ (1 ≤ (collectRoots (fun _ => false) (fun _ => true)
          [(["r"], .node ["a.jsonl", "b.jsonl"] .nil)]).length →
        (iter_files (fun _ => false) (fun _ => true) 1
          [(["r"], .node ["a.jsonl", "b.jsonl"] .nil)]).length = 1) :=
  iter_files_cap (fun _ => false) (fun _ => true) 1
    [(["r"], .node ["a.jsonl", "b.jsonl"] .nil)] (by decide)

theorem addFiles_mem (keep : String → Bool) (m : Nat) (cur : List String) :
    ∀ (fs : List String) (acc : List (List String)) (p : List String),
      p ∈ (addFiles keep m cur fs acc).1 →
      p ∈ acc ∨ ∃ f, f ∈ fs ∧ p = cur ++ [f] := by
  intro fs
  induction fs with
  | nil => intro acc p hp; left; simpa [addFiles] using hp
  | cons f fs ih =>
      intro acc p hp
      by_cases hk : keep f = true
      · simp only [addFiles, hk, if_true] at hp
        by_cases hm : m ≤ (acc ++ [cur ++ [f]]).length
        · rw [if_pos hm] at hp
          rcases List.mem_append.1 hp with h | h
          · exact Or.inl h
          · exact Or.inr ⟨f, List.mem_cons_self f fs, by simpa using h⟩
        · rw [if_neg hm] at hp
          rcases ih (acc ++ [cur ++ [f]]) p hp with h | ⟨f', hf', he⟩
          · rcases List.mem_append.1 h with h | h
            · exact Or.inl h
            · exact Or.inr ⟨f, List.mem_cons_self f fs, by simpa using h⟩
          · exact Or.inr ⟨f', List.mem_cons_of_mem f hf', he⟩
      · have hk' : keep f = false := by simpa using hk
        simp only [addFiles, hk', Bool.false_eq_true, if_false] at hp
        rcases ih acc p hp with h | ⟨f', hf', he⟩
        · exact Or.inl h
        · exact Or.inr ⟨f', List.mem_cons_of_mem f hf', he⟩

/-- The condition "every directory from `base` down to a strict ancestor of
`p` is unpruned": for every `d` that extends `base` and of which `p` is a
strict extension, `prune d` is false. -/
def CleanBelow (prune : List String → Bool) (base p : List String) : Prop :=
  ∀ d u v, base ++ u = d → d ++ v = p → v ≠ [] → prune d = false

theorem cleanBelow_file (prune : List String → Bool) (cur : List String)
    (hcur : prune cur = false) (f : String) : CleanBelow prune cur (cur ++ [f]) := by
  intro d u v hu hv hvne
  have huv : u ++ v = [f] := by
    have : cur ++ (u ++ v) = cur ++ [f] := by
      rw [← List.append_assoc, hu, hv]
    exact List.append_cancel_left this
  have hu0 : u = [] := by
    cases u with
    | nil => rfl
    | cons a u' =>
        exfalso
        cases v with
        | nil => exact hvne rfl
        | cons b v' => simp at huv
  subst hu0
  have hd_cur : d = cur := by simpa using hu.symm
  rw [hd_cur]
  exact hcur

theorem cleanBelow_lift (prune : List String → Bool) (cur : List String)
    (name : String) (p : List String) (hcur : prune cur = false)
    (h : ∃ s, s ≠ [] ∧ (cur ++ [name]) ++ s = p
        ∧ CleanBelow prune (cur ++ [name]) p) :
    ∃ s, s ≠ [] ∧ cur ++ s = p ∧ CleanBelow prune cur p := by
  obtain ⟨s, hs, hsp, hd⟩ := h
  refine ⟨name :: s, by simp, by simpa [List.append_assoc] using hsp, ?_⟩
  intro d u v hu hv hvne
  cases u with
  | nil =>
      have hd_cur : d = cur := by simpa using hu.symm
      rw [hd_cur]
      exact hcur
  | cons a u' =>
      have huv : (a :: u') ++ v = name :: s := by
        have h1 : cur ++ ((a :: u') ++ v) = cur ++ (name :: s) := by
          rw [← List.append_assoc, hu, hv, ← hsp]
          simp [List.append_assoc]
        exact List.append_cancel_left h1
      simp only [List.cons_append, List.cons.injEq] at huv
      obtain ⟨ha, hu'v⟩ := huv
      subst ha
      exact hd d u' v (by rw [← hu]; simp [List.append_assoc]) hv hvne

mutual
theorem walkTree_anc (prune : List String → Bool) (keep : String → Bool) (m : Nat)
    (t : FsTree) : ∀ (cur : List String) (acc : List (List String)),
      prune cur = false → ∀ p ∈ (walkTree prune keep m cur t acc).1,
      p ∈ acc ∨ ∃ s, s ≠ [] ∧ cur ++ s = p ∧ CleanBelow prune cur p := by
  cases t with
  | node files subdirs =>
      intro cur acc hcur p hp
      rcases ha : addFiles keep m cur files acc with ⟨acc1, st⟩
      have hfile : p ∈ acc1 →
          p ∈ acc ∨ ∃ s, s ≠ [] ∧ cur ++ s = p ∧ CleanBelow prune cur p := by
        intro hp1
        have := addFiles_mem keep m cur files acc p (by rw [ha]; exact hp1)
        rcases this with h | ⟨f, _, he⟩
        · exact Or.inl h
        · exact Or.inr ⟨[f], by simp, he.symm, he ▸ cleanBelow_file prune cur hcur f⟩
      cases st with
      | true =>
          simp only [walkTree, ha] at hp
          exact hfile hp
      | false =>
          simp only [walkTree, ha] at hp
          rcases walkForest_anc prune keep m subdirs cur acc1 hcur p hp with h | h
          · exact hfile h
          · exact Or.inr h

theorem walkForest_anc (prune : List String → Bool) (keep : String → Bool) (m : Nat)
    (fr : FsForest) : ∀ (cur : List String) (acc : List (List String)),
      prune cur = false → ∀ p ∈ (walkForest prune keep m cur fr acc).1,
      p ∈ acc ∨ ∃ s, s ≠ [] ∧ cur ++ s = p ∧ CleanBelow prune cur p := by
  cases fr with
  | nil =>
      intro cur acc _ p hp
      left
      simpa [walkForest] using hp
  | cons name t rest =>
      intro cur acc hcur p hp
      by_cases hpr : prune (cur ++ [name]) = true
      · simp only [walkForest, hpr, if_true] at hp
        exact walkForest_anc prune keep m rest cur acc hcur p hp
      · have hpr' : prune (cur ++ [name]) = false := by simpa using hpr
        rcases hw : walkTree prune keep m (cur ++ [name]) t acc with ⟨acc1, st⟩
        have hchild : p ∈ acc1 →
            p ∈ acc ∨ ∃ s, s ≠ [] ∧ cur ++ s = p ∧ CleanBelow prune cur p := by
          intro hp1
          have := walkTree_anc prune keep m t (cur ++ [name]) acc hpr' p
            (by rw [hw]; exact hp1)
          rcases this with h | h
          · exact Or.inl h
          · exact Or.inr (cleanBelow_lift prune cur name p hcur h)
        cases st with
        | true =>
            simp only [walkForest, hpr', Bool.false_eq_true, if_false, hw] at hp
            exact hchild hp
        | false =>
            simp only [walkForest, hpr', Bool.false_eq_true, if_false, hw] at hp
            rcases walkForest_anc prune keep m rest cur acc1 hcur p hp with h | h
            · exact hchild h
            · exact Or.inr h
end

theorem iterFilesGo_anc (prune : List String → Bool) (keep : String → Bool) (m : Nat) :
    ∀ (roots : List (List String × FsTree)) (acc : List (List String)) (p : List String),
      p ∈ iterFilesGo prune keep m roots acc →
      p ∈ acc ∨ ∃ rt, rt ∈ roots ∧ ∃ s, s ≠ [] ∧ rt.1 ++ s = p
        ∧ CleanBelow prune rt.1 p := by
  intro roots
  induction roots with
  | nil => intro acc p hp; left; simpa [iterFilesGo] using hp
  | cons rt rest ih =>
      intro acc p hp
      rcases rt with ⟨rp, t⟩
      by_cases hpr : prune rp = true
      · simp only [iterFilesGo, hpr, if_true] at hp
        rcases ih acc p hp with h | ⟨rt', hrt', h⟩
        · exact Or.inl h
        · exact Or.inr ⟨rt', List.mem_cons_of_mem _ hrt', h⟩
      · have hpr' : prune rp = false := by simpa using hpr
        rcases hw : walkTree prune keep m rp t acc with ⟨acc1, st⟩
        have hroot : p ∈ acc1 →
            p ∈ acc ∨ ∃ rt', rt' ∈ (rp, t) :: rest ∧ ∃ s, s ≠ [] ∧ rt'.1 ++ s = p
              ∧ CleanBelow prune rt'.1 p := by
          intro hp1
          have := walkTree_anc prune keep m t rp acc hpr' p (by rw [hw]; exact hp1)
          rcases this with h | h
          · exact Or.inl h
          · exact Or.inr ⟨(rp, t), List.mem_cons_self _ _, h⟩
        cases st with
        | true =>
            simp only [iterFilesGo, hpr', Bool.false_eq_true, if_false, hw] at hp
            exact hroot hp
        | false =>
            simp only [iterFilesGo, hpr', Bool.false_eq_true, if_false, hw] at hp
            rcases ih acc1 p hp with h | ⟨rt', hrt', h⟩
            · exact hroot h
            · exact Or.inr ⟨rt', List.mem_cons_of_mem _ hrt', h⟩

/-- C6 (amended): every path returned by `iter_files` extends the path of one
of the walked roots, and every directory from that root down to the file's
parent was checked and found unpruned — so no result path has a pruned
directory as a prefix at or below its originating root.  (As the
counterexample shows, directories strictly above a root are never consulted,
which is what the original claim missed.) -/
theorem iter_files_prune_ancestors (prune : List String → Bool)
    (keep : String → Bool) (m : Nat) (roots : List (List String × FsTree))
    (p : List String) (hp : p ∈ iter_files prune keep m roots) :
    ∃ rt, rt ∈ roots ∧ ∃ s, s ≠ [] ∧ rt.1 ++ s = p ∧
      ∀ d u v, rt.1 ++ u = d → d ++ v = p → v ≠ [] → prune d = false := by
  rcases iterFilesGo_anc prune keep m roots [] p hp with h | ⟨rt, hrt, s, hs, hsp, hd⟩
  · simp at h
  · exact ⟨rt, hrt, s, hs, hsp, hd⟩

theorem iter_files_prune_ancestors_witness :
    ∃ rt, rt ∈ [((["r"] : List String),
          FsTree.node ["a.jsonl"] (.cons "skip" (.node ["x.jsonl"] .nil) .nil))]
      ∧ ∃ s, s ≠ [] ∧ rt.1 ++ s = ["r", "a.jsonl"] ∧
        ∀ d u v, rt.1 ++ u = d → d ++ v = ["r", "a.jsonl"] → v ≠ [] →
          (fun q => decide (q = ["r", "skip"])) d = false :=
  iter_files_prune_ancestors (fun q => decide (q = ["r", "skip"])) (fun _ => true) 10
    [((["r"] : List String),
        FsTree.node ["a.jsonl"] (.cons "skip" (.node ["x.jsonl"] .nil) .nil))]
    ["r", "a.jsonl"] (by decide)

/-- C6 counterexample: the claim as stated fails when the pruned directory is
a strict ancestor of a walked root.  Here the skip set contains the directory
`/a` while the walk is rooted at `/a/b`: `iter_files` checks `_prune_dir`
only on the root itself and on subdirectories it descends into, never on the
root's own ancestors, so the result path `/a/b/f.jsonl` has the pruned
directory `/a` as a path prefix. -/
theorem pruned_root_ancestor_leak_cex :
    (fun q => decide (q = ["a"])) (["a"] : List String) = true
    ∧ iter_files (fun q => decide (q = ["a"])) (fun _ => true) 10
        [((["a", "b"] : List String), FsTree.node ["f.jsonl"] .nil)]
        = [["a", "b", "f.jsonl"]]
    ∧ (["a"] : List String) ++ ["b", "f.jsonl"] = ["a", "b", "f.jsonl"] := by
  refine ⟨by decide, by decide, by decide⟩

theorem probeEntries_agree (prune : List String → Bool) (keep : String → Bool)
    (r1 r2 : List String → Int → Bool) (root : List String) :
    ∀ (l1 l2 : List FsEntry) (b : Int),
      l1.take (b - 1).toNat = l2.take (b - 1).toNat →
      (∀ (nm : String) (b' : Int), b' ≤ b - 1 →
        r1 (root ++ [nm]) b' = r2 (root ++ [nm]) b') →
      probeEntries prune keep r1 root l1 b = probeEntries prune keep r2 root l2 b := by
  intro l1
  induction l1 with
  | nil =>
      intro l2 b ht _hr
      cases l2 with
      | nil => rfl
      | cons f t2 =>
          by_cases hb : b - 1 ≤ 0
          · simp [probeEntries, hb]
          · exfalso
            have hk : (b - 1).toNat = (b - 2).toNat + 1 := by omega
            rw [hk, List.take_nil, List.take_succ_cons] at ht
            exact List.noConfusion ht
  | cons e t1 ih =>
      intro l2 b ht hr
      by_cases hb : b - 1 ≤ 0
      · cases l2 with
        | nil => simp [probeEntries, hb]
        | cons f t2 => simp [probeEntries, hb]
      · have hk : (b - 1).toNat = (b - 2).toNat + 1 := by omega
        cases l2 with
        | nil =>
            exfalso
            rw [hk, List.take_nil, List.take_succ_cons] at ht
            exact List.noConfusion ht
        | cons f t2 =>
            rw [hk, List.take_succ_cons, List.take_succ_cons] at ht
            have hef : e = f := (List.cons.injEq _ _ _ _ ▸ ht).1
            have htail : t1.take (b - 2).toNat = t2.take (b - 2).toNat :=
              (List.cons.injEq _ _ _ _ ▸ ht).2
            subst hef
            have htail' : t1.take ((b - 1) - 1).toNat = t2.take ((b - 1) - 1).toNat := by
              have : ((b - 1) - 1).toNat = (b - 2).toNat := by omega
              rw [this]
              exact htail
            have hr' : ∀ (nm : String) (b' : Int), b' ≤ (b - 1) - 1 →
                r1 (root ++ [nm]) b' = r2 (root ++ [nm]) b' :=
              fun nm b' hb' => hr nm b' (by omega)
            have hrec : probeEntries prune keep r1 root t1 (b - 1)
                = probeEntries prune keep r2 root t2 (b - 1) :=
              ih t2 (b - 1) htail' hr'
            simp only [probeEntries]
            rw [if_neg hb, if_neg hb]
            by_cases hp : prune (root ++ [e.name]) = true
            · rw [if_pos hp, if_pos hp]
              exact hrec
            · rw [if_neg hp, if_neg hp]
              cases hkind : e.kind with
              | file =>
                  by_cases hkeep : keep e.name = true
                  · rw [if_pos hkeep, if_pos hkeep]
                  · rw [if_neg hkeep, if_neg hkeep]
                    exact hrec
              | dir =>
                  rw [hr e.name (b - 1) (by omega)]
                  by_cases hd : r2 (root ++ [e.name]) (b - 1) = true
                  · rw [if_pos hd, if_pos hd]
                  · rw [if_neg hd, if_neg hd]
                    exact hrec
              | other => exact hrec

theorem dirHasMatchFuel_agree (prune : List String → Bool) (keep : String → Bool)
    (fs fs' : ScanFs) :
    ∀ (fuel : Nat) (root : List String) (b : Int),
      (∀ q : List String, root.length ≤ q.length → q.length < root.length + fuel →
        (fs q).take (b - 1).toNat = (fs' q).take (b - 1).toNat) →
      dirHasMatchFuel fs prune keep fuel root b
        = dirHasMatchFuel fs' prune keep fuel root b := by
  intro fuel
  induction fuel with
  | zero => intro root b _; rfl
  | succ fuel ih =>
      intro root b h
      by_cases hb : b ≤ 0
      · simp [dirHasMatchFuel, hb]
      · simp only [dirHasMatchFuel]
        rw [if_neg hb, if_neg hb]
        refine probeEntries_agree prune keep _ _ root (fs root) (fs' root) b ?_ ?_
        · exact h root le_rfl (by omega)
        · intro nm b' hb'
          refine ih (root ++ [nm]) b' ?_
          intro q hq1 hq2
          have hlen : (root ++ [nm]).length = root.length + 1 := by simp
          have hq1' : root.length ≤ q.length := by omega
          have hq2' : q.length < root.length + (fuel + 1) := by omega
          have hqe := h q hq1' hq2'
          have hmin : (b' - 1).toNat ≤ (b - 1).toNat := by omega
          calc (fs q).take (b' - 1).toNat
              = ((fs q).take (b - 1).toNat).take (b' - 1).toNat := by
                rw [List.take_take, Nat.min_eq_left hmin]
            _ = ((fs' q).take (b - 1).toNat).take (b' - 1).toNat := by rw [hqe]
            _ = (fs' q).take (b' - 1).toNat := by
                rw [List.take_take, Nat.min_eq_left hmin]

/-- C7: the directory look-ahead probe `_dir_has_match` is bounded by its
probe depth and visited-entry budget: its result depends only on the
directory listings at depth less than `max_depth + 1` below the probed root,
and within each listing only on the first `budget - 1` entries.  Since a
`ScanFs` is an arbitrary function, this covers arbitrarily (even infinitely)
deep and arbitrarily wide trees: everything outside the bounded region is
never visited, which is the formal content of the termination claim (the
recursion itself is structurally bounded by the depth fuel
`(max_depth + 1).toNat`, with the budget bounding each directory scan). -/
theorem dir_has_match_bounded_probe (fs fs' : ScanFs) (prune : List String → Bool)
    (keep : String → Bool) (root : List String) (max_depth budget : Int)
    (h : ∀ q : List String, root.length ≤ q.length →
        q.length < root.length + (max_depth + 1).toNat →
        (fs q).take (budget - 1).toNat = (fs' q).take (budget - 1).toNat) :
    _dir_has_match fs prune keep root max_depth budget
      = _dir_has_match fs' prune keep root max_depth budget :=
  dirHasMatchFuel_agree prune keep fs fs' (max_depth + 1).toNat root budget h

theorem dir_has_match_bounded_probe_witness :
    _dir_has_match
        (fun q => if q = [] then [⟨"a", .dir⟩] else [⟨"deep.jsonl", .file⟩])
        (fun _ => false) (fun _ => true) [] 0 5
      = _dir_has_match
        (fun q => if q = [] then [⟨"a", .dir⟩] else [])
        (fun _ => false) (fun _ => true) [] 0 5 :=
  dir_has_match_bounded_probe
    (fun q => if q = [] then [⟨"a", .dir⟩] else [⟨"deep.jsonl", .file⟩])
    (fun q => if q = [] then [⟨"a", .dir⟩] else [])
    (fun _ => false) (fun _ => true) [] 0 5
    (by
      intro q _ hq
      cases q with
      | nil => rfl
      | cons a t => simp at hq)

/-- C8: RecordStore round-trip.  For every record list and every
serializer/parser pair with the `json` library's documented behaviour on
these records — `loads (dumps r) = r`, and `dumps r` is a non-blank single
line unchanged by stripping — saving with `write_jsonl` and re-reading with
`read_jsonl` returns a list equal to what was saved, in the same order (one
JSON document per line, insertion order preserved). -/
theorem record_store_round_trip (loads : JsonLoads) (dumps : JsonDumps)
    (rows : List JValue)
    (hparse : ∀ r ∈ rows, loads (dumps r) = .ok r)
    (hline : ∀ r ∈ rows, pyStrip (dumps r) = dumps r ∧ dumps r ≠ "") :
    read_jsonl loads (some (write_jsonl dumps rows)) = rows := by
  have key : ∀ (rs : List JValue) (i : Nat),
      (∀ r ∈ rs, loads (dumps r) = .ok r) →
      (∀ r ∈ rs, pyStrip (dumps r) = dumps r ∧ dumps r ≠ "") →
      readJsonlGo loads i (rs.map dumps) = rs := by
    intro rs
    induction rs with
    | nil => intro i _ _; rfl
    | cons r rs ih =>
        intro i hp hl
        have h1 := hp r (List.mem_cons_self r rs)
        have h2 := hl r (List.mem_cons_self r rs)
        simp only [List.map_cons, readJsonlGo, h2.1]
        rw [if_neg h2.2]
        have hrec := ih (i + 1) (fun x hx => hp x (List.mem_cons_of_mem r hx))
          (fun x hx => hl x (List.mem_cons_of_mem r hx))
        rw [hrec]
        simp [lineRecord, h1]
    
  exact key rows 1 hparse hline

theorem record_store_round_trip_witness :
    read_jsonl (fun s => if s = "A" then .ok (.str "a") else .ok (.bool true))
        (some (write_jsonl
          (fun v => match v with | .str _ => "A" | _ => "B")
          [JValue.str "a", JValue.bool true]))
      = [JValue.str "a", JValue.bool true] :=
  record_store_round_trip
    (fun s => if s = "A" then .ok (.str "a") else .ok (.bool true))
    (fun v => match v with | .str _ => "A" | _ => "B")
    [JValue.str "a", JValue.bool true]
    (by
      intro r hr
      simp only [List.mem_cons, List.not_mem_nil, or_false] at hr
      rcases hr with rfl | rfl
      · rfl
      · rfl)
    (by
      intro r hr
      simp only [List.mem_cons, List.not_mem_nil, or_false] at hr
      rcases hr with rfl | rfl
      · exact ⟨rfl, by decide⟩
      · exact ⟨rfl, by decide⟩)

/-- C9: for a file currently holding `n` records, `api_update_record` and
`api_delete_record` called with an index outside `[0, n)` answer 404 "Index
out of range" and return the on-disk file unchanged: the index check runs
before the payload parse and before any `write_jsonl` call. -/
theorem out_of_range_rejected (loads : JsonLoads) (dumps : JsonDumps)
    (file : Option (List String)) (idx : Int) (payload : String)
    (h : idx < 0 ∨ ((read_jsonl loads file).length : Int) ≤ idx) :
    api_update_record loads dumps file idx payload
        = (file, .httpError 404 "Index out of range")
    ∧ api_delete_record loads dumps file idx
        = (file, .httpError 404 "Index out of range") := by
  constructor
  · simp only [api_update_record]
    rw [if_pos h]
  · simp only [api_delete_record]
    rw [if_pos h]

theorem out_of_range_rejected_witness :
    api_update_record badLoads (fun _ => "x") (some ["1"]) 5 "payload"
        = (some ["1"], .httpError 404 "Index out of range")
    ∧ api_delete_record badLoads (fun _ => "x") (some ["1"]) 5
        = (some ["1"], .httpError 404 "Index out of range") :=
  out_of_range_rejected badLoads (fun _ => "x") (some ["1"]) 5 "payload"
    (by decide)

/-- C10: for a name whose path does not exist on disk (`file = none`),
`api_get_record`, `api_update_record` and `api_delete_record` at every index
— including 0 — are rejected with the index-out-of-range 404, not a
not-found error, because `read_jsonl` yields `[]` for a missing file; the
rejected operation leaves the file component unchanged (`none`), so no file
is created. -/
theorem missing_file_out_of_range (loads : JsonLoads) (dumps : JsonDumps)
    (idx : Int) (payload : String) :
    api_get_record loads none idx = .error (404, "Index out of range")
    ∧ api_update_record loads dumps none idx payload
        = (none, .httpError 404 "Index out of range")
    ∧ api_delete_record loads dumps none idx
        = (none, .httpError 404 "Index out of range") := by
  have hlen : ((read_jsonl loads none).length : Int) = 0 := rfl
  have h : idx < 0 ∨ ((read_jsonl loads none).length : Int) ≤ idx := by
    rw [hlen]; omega
  refine ⟨?_, ?_, ?_⟩
  · simp only [api_get_record]
    rw [if_pos h]
  · simp only [api_update_record]
    rw [if_pos h]
  · simp only [api_delete_record]
    rw [if_pos h]
